import Mathlib

/-!
Verification of `update_publications.py`: a shallow embedding of the pure
string-processing core of the script (marker splicing via `re.sub`,
`str.replace`-based escaping, author-name formatting, link selection and the
year-extraction logic of `fetch_papers`), with theorems settling the spec's
claims about it.  Strings are embedded as `List Char`; Python `re.sub` with
the pattern `re.escape(start) + ".*?" + re.escape(end)` (DOTALL) is embedded
as a left-to-right scan that finds, at the leftmost possible position, the
shortest span `start ... end`, replaces it, and continues after it.
-/

set_option maxHeartbeats 1000000

/-- Predicate `leads p t`: true when the string `p` is an initial segment of `t`
(the role `str.startswith` / regex literal matching plays in the source). -/
def leads : List Char → List Char → Bool
  | [], _ => true
  | _ :: _, [] => false
  | a :: p, b :: t => a == b && leads p t

/-- Index of the leftmost occurrence of `p` in `t` (Python `str.find` /
the scan `re.sub` performs for a literal pattern), `none` if absent. -/
def findSub (p : List Char) : List Char → Option Nat
  | [] => if leads p [] then some 0 else none
  | c :: rest => if leads p (c :: rest) then some 0 else (findSub p rest).map (· + 1)

/-- Leftmost match of the regex `re.escape(s) + ".*?" + re.escape(e)` with
DOTALL in `t`: the smallest start index `i` at which `s` occurs with an
occurrence of `e` at some `j ≥ i + |s|`, paired with the length of the
shortest such span (lazy `.*?`).  Returns `none` when no match exists. -/
def findMatch (s e : List Char) : List Char → Option (Nat × Nat)
  | [] =>
    if leads s [] then
      match findSub e [] with
      | some k => some (0, s.length + k + e.length)
      | none => none
    else none
  | c :: rest =>
    if leads s (c :: rest) then
      match findSub e ((c :: rest).drop s.length) with
      | some k => some (0, s.length + k + e.length)
      | none => (findMatch s e rest).map (fun q => (q.1 + 1, q.2))
    else (findMatch s e rest).map (fun q => (q.1 + 1, q.2))

/-- One pass of `pattern.sub(lambda m: repl, text)`: replace every
non-overlapping match, scanning left to right, resuming after each
replacement.  A zero-width match (possible only when both markers are empty)
emits the replacement and advances one character, as Python's `re.sub` does.
Fuel bounds the recursion; `text.length + 1` is always enough. -/
def subAll : Nat → List Char → List Char → List Char → List Char → List Char
  | 0, _, _, _, t => t
  | fuel + 1, s, e, repl, t =>
    match findMatch s e t with
    | none => t
    | some (i, sp) =>
      if sp = 0 then
        match t.drop i with
        | [] => t.take i ++ repl
        | c :: rest => t.take i ++ repl ++ c :: subAll fuel s e repl rest
      else t.take i ++ repl ++ subAll fuel s e repl (t.drop (i + sp))

/-- The replacement block `start_marker + "\n" + replacement + "\n" + end_marker`
built in `replace_between_markers`. -/
def block (s e r : List Char) : List Char := s ++ '\n' :: (r ++ '\n' :: e)

/-- Function `replace_between_markers(text, start_marker, end_marker, replacement)`
from `update_publications.py`: `re.sub` of the non-greedy DOTALL pattern
`start .*? end` by `start + "\n" + replacement + "\n" + end` over `text`. -/
def replace_between_markers (text s e r : List Char) : List Char :=
  subAll (text.length + 1) s e (block s e r) text

/-- Number of matches the pattern `start .*? end` produces in `t` under
`re.sub`'s left-to-right non-overlapping scan. -/
def countSpansAux : Nat → List Char → List Char → List Char → Nat
  | 0, _, _, _ => 0
  | fuel + 1, s, e, t =>
    match findMatch s e t with
    | none => 0
    | some (i, sp) =>
      if sp = 0 then
        match t.drop i with
        | [] => 1
        | _ :: rest => 1 + countSpansAux fuel s e rest
      else 1 + countSpansAux fuel s e (t.drop (i + sp))

/-- Number of marker-pair spans in `t` (see `countSpansAux`). -/
def countSpans (s e t : List Char) : Nat := countSpansAux (t.length + 1) s e t

/-- Python's `p in t` substring test. -/
def containsSub (p t : List Char) : Bool := (findSub p t).isSome

/-- One pass of Python `str.replace(old, new)`: replace every non-overlapping
occurrence of `old`, scanning left to right, resuming after each replacement
(the inserted `new` is never rescanned).  Fuel as in `subAll`. -/
def replaceAll : Nat → List Char → List Char → List Char → List Char
  | 0, _, _, t => t
  | fuel + 1, old, new, t =>
    match findSub old t with
    | none => t
    | some i =>
      if old.length = 0 then
        match t.drop i with
        | [] => t.take i ++ new
        | c :: rest => t.take i ++ new ++ c :: replaceAll fuel old new rest
      else t.take i ++ new ++ replaceAll fuel old new (t.drop (i + old.length))

/-- Python `t.replace(old, new)` (see `replaceAll`). -/
def pyReplace (t old new : List Char) : List Char :=
  replaceAll (t.length + 1) old new t

/-- Predicate `occursAt p t i`: the string `p` occurs in `t` at position `i`. -/
def occursAt (p t : List Char) (i : Nat) : Prop :=
  i ≤ t.length ∧ leads p (t.drop i) = true

instance (p t : List Char) (i : Nat) : Decidable (occursAt p t i) :=
  inferInstanceAs (Decidable (_ ∧ _))

/-- Number of positions of `t` at which `p` occurs. -/
def countOcc (p t : List Char) : Nat :=
  ((List.range (t.length + 1)).filter (fun i => leads p (t.drop i))).length

/-- Characters Python's `str.strip()` removes (whitespace; modelled as the
ASCII whitespace characters, which is what the script's inputs contain). -/
def isSpaceChar (c : Char) : Bool :=
  c == ' ' || c == '\t' || c == '\n' || c == '\r' || c == '\x0b' || c == '\x0c'

/-- Python `str.strip()`: drop whitespace from both ends. -/
def pyStrip (s : List Char) : List Char :=
  ((s.dropWhile isSpaceChar).reverse.dropWhile isSpaceChar).reverse

/-- The module constant `MY_NAMES` (a set; membership is all that is used). -/
def MY_NAMES : List (List Char) :=
  ["Berean-Dutcher, Jonah".toList, "Berean-Dutcher, J.".toList,
   "Berean, Jonah".toList, "Berean, J.".toList]

/-- Function `format_author_short(full_name)`: convert `"Last, First Middle"` to
`"F. Last"`.  With a comma: split at the first comma, strip the part after
it, take its first character (empty if none) as the initial, and return
`initial + ". " + last.strip()`.  Without a comma: return the name unchanged. -/
def format_author_short (fn : List Char) : List Char :=
  if ',' ∈ fn then
    let last := fn.takeWhile (fun c => c != ',')
    let first := pyStrip ((fn.dropWhile (fun c => c != ',')).drop 1)
    (match first with | [] => [] | c :: _ => [c]) ++ '.' :: ' ' :: pyStrip last
  else fn

/-- The last-name segment `is_me` tests: the stripped text before the first
comma when one is present, else the (already stripped) whole name. -/
def lastSegment (name : List Char) : List Char :=
  if ',' ∈ name then pyStrip (name.takeWhile (fun c => c != ',')) else name

/-- Function `is_me(full_name)`: the stripped name is one of `MY_NAMES`, or its
last-name segment contains the substring `"Berean"`. -/
def is_me (fn : List Char) : Bool :=
  let name := pyStrip fn
  if name ∈ MY_NAMES then true
  else containsSub "Berean".toList (lastSegment name)

/-- The owner's fixed bold display string used by `author_list_html`. -/
def me_html : List Char := "<strong>J. Berean-Dutcher</strong>".toList

/-- Index of the last entry (from index `k` on) satisfying `is_me`: the final
value of `me_idx` in `author_list_html`'s loop, which overwrites it at every
owner hit. -/
def lastIdxFrom (k : Nat) : List (List Char) → Option Nat
  | [] => none
  | a :: rest =>
    match lastIdxFrom (k + 1) rest with
    | some j => some j
    | none => if is_me a then some k else none

/-- Python `list.insert(n, x)`: insert at index `n`, clamped to the length. -/
def insertAt : Nat → List Char → List (List Char) → List (List Char)
  | 0, x, l => x :: l
  | _ + 1, x, [] => [x]
  | n + 1, x, a :: l => a :: insertAt n x l

/-- Python `sep.join(parts)`. -/
def joinSep (sep : List Char) (parts : List (List Char)) : List Char :=
  (parts.intersperse sep).flatten

/-- Function `author_list_html(authors)` over the authors' full-name strings: bold the
owner, and with more than 2 non-owner coauthors truncate to the first two
coauthors with the owner inserted at `min(me_idx, 2)` (at 0 when absent),
joined with `", "` and suffixed `" et al."`. -/
def author_list_html (authors : List (List Char)) : List Char :=
  let coauthors := (authors.filter (fun a => !(is_me a))).map format_author_short
  let me_idx := lastIdxFrom 0 authors
  if coauthors.length ≤ 2 then
    let names := authors.map (fun a => if is_me a then me_html else format_author_short a)
    if names.length ≤ 2 then joinSep " & ".toList names
    else joinSep ", ".toList names.dropLast ++ " & ".toList ++ (names.getLast?.getD [])
  else
    let withMe :=
      match me_idx with
      | some i => insertAt (min i 2) me_html (coauthors.take 2)
      | none => insertAt 0 me_html (coauthors.take 2)
    joinSep ", ".toList withMe ++ " et al.".toList

/-- Spec-side per-character HTML escaping: `&` to `"&amp;"`, `<` to `"&lt;"`,
`>` to `"&gt;"`, every other character kept. -/
def htmlEscapeChar (c : Char) : List Char :=
  if c = '&' then "&amp;".toList
  else if c = '<' then "&lt;".toList
  else if c = '>' then "&gt;".toList
  else [c]

/-- Spec-side per-character LaTeX escaping: the five characters of the
`special` table escaped, everything else (in particular `$`) kept. -/
def latexEscapeChar (c : Char) : List Char :=
  if c = '&' then "\\&".toList
  else if c = '%' then "\\%".toList
  else if c = '#' then "\\#".toList
  else if c = '_' then "\\_".toList
  else if c = '~' then "\\textasciitilde\x7b\x7d".toList
  else [c]

/-- Apply a per-character expansion to every character (spec side). -/
def expand (f : Char → List Char) : List Char → List Char
  | [] => []
  | c :: t => f c ++ expand f t

/-- Function `escape_html(s)`: `s.replace("&","&amp;").replace("<","&lt;").replace(">","&gt;")`. -/
def escape_html (s : List Char) : List Char :=
  pyReplace (pyReplace (pyReplace s "&".toList "&amp;".toList)
    "<".toList "&lt;".toList) ">".toList "&gt;".toList

/-- The `special` replacement table of `escape_latex`, in dict order
(`$` is deliberately absent). -/
def latexSpecial : List (List Char × List Char) :=
  [("&".toList, "\\&".toList), ("%".toList, "\\%".toList),
   ("#".toList, "\\#".toList), ("_".toList, "\\_".toList),
   ("~".toList, "\\textasciitilde\x7b\x7d".toList)]

/-- Function `escape_latex(s)`: fold `s = s.replace(ch, repl)` over `latexSpecial`. -/
def escape_latex (s : List Char) : List Char :=
  latexSpecial.foldl (fun acc p => pyReplace acc p.1 p.2) s

/-- The normalized publication record built by `fetch_papers` (§3 of the
spec); optional fields are `Option`, absent-or-falsy is tested by `truthy`. -/
structure Paper where
  title : List Char
  authors : List (List Char)
  arxiv : Option (List Char)
  journal : Option (List Char)
  year : List Char
  doi : Option (List Char)
  inspire_id : Option (List Char)

/-- Python truthiness of an optional string field: present and non-empty. -/
def truthy : Option (List Char) → Bool
  | none => false
  | some s => !s.isEmpty

/-- Function `paper_link(paper)`: the single `(url, display_text)` pair chosen by the
fixed priority arXiv, then DOI, then INSPIRE id; `none` when all are falsy
(Python's `(None, None)`). -/
def paper_link (p : Paper) : Option (List Char × List Char) :=
  if truthy p.arxiv then
    some ("https://arxiv.org/abs/".toList ++ p.arxiv.getD [],
      "arXiv:".toList ++ p.arxiv.getD [])
  else if truthy p.doi then
    some ("https://doi.org/".toList ++ p.doi.getD [],
      "doi:".toList ++ p.doi.getD [])
  else if truthy p.inspire_id then
    some ("https://inspirehep.net/literature/".toList ++ p.inspire_id.getD [],
      "INSPIRE".toList)
  else none

/-- The year computation of `fetch_papers` (lines 40-43): the
`publication_info` year when truthy, else the first four characters of
`earliest_date` when that is non-empty, else the empty string. -/
def fetch_year (pubYear : Option (List Char)) (earliest : List Char) : List Char :=
  let y := pubYear.getD []
  if y = [] then (if earliest = [] then [] else earliest.take 4) else y

theorem leads_append_self (p v : List Char) : leads p (p ++ v) = true := by
  induction p with
  | nil => rfl
  | cons a p ih => simp [leads, ih]

theorem leads_iff (p t : List Char) : leads p t = true ↔ ∃ u, t = p ++ u := by
  induction p generalizing t with
  | nil => simp [leads]
  | cons a p ih =>
    cases t with
    | nil => simp [leads]
    | cons b t =>
      simp only [leads, Bool.and_eq_true, beq_iff_eq, ih, List.cons_append, List.cons.injEq]
      constructor
      · rintro ⟨rfl, u, rfl⟩; exact ⟨u, rfl, rfl⟩
      · rintro ⟨u, rfl, rfl⟩; exact ⟨rfl, u, rfl⟩

theorem leads_length {p t : List Char} (h : leads p t = true) : p.length ≤ t.length := by
  obtain ⟨u, rfl⟩ := (leads_iff p t).1 h
  simp

theorem leads_append_ext {p u : List Char} (v : List Char) (h : leads p u = true) :
    leads p (u ++ v) = true := by
  obtain ⟨w, rfl⟩ := (leads_iff p u).1 h
  rw [List.append_assoc]
  exact leads_append_self p (w ++ v)

theorem leads_of_append {p u v : List Char} (h : leads p (u ++ v) = true)
    (hl : p.length ≤ u.length) : leads p u = true := by
  obtain ⟨w, hw⟩ := (leads_iff ..).1 h
  have h3 : u.take p.length = p := by
    rw [← List.take_append_of_le_length hl, hw, List.take_left]
  rw [leads_iff]
  refine ⟨u.drop p.length, ?_⟩
  conv_lhs => rw [← List.take_append_drop p.length u]
  rw [h3]

theorem occursAt_cons {p rest : List Char} {c : Char} {k : Nat} (h : occursAt p rest k) :
    occursAt p (c :: rest) (k + 1) := by
  obtain ⟨h1, h2⟩ := h
  exact ⟨by simpa using Nat.succ_le_succ h1, by simpa using h2⟩

theorem occ_embed_left {p u : List Char} (v : List Char) {j : Nat}
    (h : occursAt p u j) : occursAt p (u ++ v) j := by
  obtain ⟨hj, hl⟩ := h
  refine ⟨by simp only [List.length_append]; omega, ?_⟩
  rw [List.drop_append_of_le_length hj]
  exact leads_append_ext v hl

theorem occ_extract_left {p u v : List Char} {j : Nat} (h : occursAt p (u ++ v) j)
    (hb : j + p.length ≤ u.length) : occursAt p u j := by
  obtain ⟨hj, hl⟩ := h
  have hju : j ≤ u.length := by omega
  refine ⟨hju, ?_⟩
  rw [List.drop_append_of_le_length hju] at hl
  exact leads_of_append hl (by rw [List.length_drop]; omega)

theorem occ_shift {p u v : List Char} {k : Nat} (h : occursAt p v k) :
    occursAt p (u ++ v) (u.length + k) := by
  obtain ⟨hk, hl⟩ := h
  refine ⟨by simp only [List.length_append]; omega, ?_⟩
  have hd : (u ++ v).drop (u.length + k) = v.drop k := by
    rw [← List.drop_drop, List.drop_left]
  rw [hd]
  exact hl

theorem occ_unshift {p u v : List Char} {j : Nat} (h : occursAt p (u ++ v) j)
    (hb : u.length ≤ j) : occursAt p v (j - u.length) := by
  obtain ⟨hj, hl⟩ := h
  have hlen : j - u.length ≤ v.length := by
    simp only [List.length_append] at hj; omega
  refine ⟨hlen, ?_⟩
  have hd : (u ++ v).drop j = v.drop (j - u.length) := by
    obtain ⟨k, rfl⟩ : ∃ k, j = u.length + k := ⟨j - u.length, by omega⟩
    rw [← List.drop_drop, List.drop_left]
    congr 1
    omega
  rw [hd] at hl
  exact hl

theorem occ_within {s e t : List Char} {j i : Nat} (hs : occursAt s t j)
    (he : occursAt e t i) (h1 : j ≤ i) (h2 : i + e.length ≤ j + s.length) :
    leads e (s.drop (i - j)) = true := by
  obtain ⟨hj, hls⟩ := hs
  obtain ⟨hi, hle⟩ := he
  obtain ⟨w, hw⟩ := (leads_iff ..).1 hls
  have hd : t.drop i = s.drop (i - j) ++ w := by
    have hdd : t.drop i = (t.drop j).drop (i - j) := by
      rw [List.drop_drop]; congr 1; omega
    rw [hdd, hw, List.drop_append_of_le_length (by omega)]
  rw [hd] at hle
  exact leads_of_append hle (by rw [List.length_drop]; omega)

theorem findSub_self (p v : List Char) : findSub p (p ++ v) = some 0 := by
  have hl : leads p (p ++ v) = true := leads_append_self p v
  cases hpv : p ++ v with
  | nil =>
    rw [hpv] at hl
    simp [findSub, hl]
  | cons c rest =>
    rw [hpv] at hl
    simp [findSub, hl]

theorem findSub_sound {p t : List Char} : ∀ {k}, findSub p t = some k → occursAt p t k := by
  induction t with
  | nil =>
    intro k h
    unfold findSub at h
    split at h
    next hcond =>
      injection h with h'
      subst h'
      exact ⟨Nat.zero_le _, hcond⟩
    next => exact absurd h (by simp)
  | cons c rest ih =>
    intro k h
    unfold findSub at h
    split at h
    next hcond =>
      injection h with h'
      subst h'
      exact ⟨Nat.zero_le _, hcond⟩
    next hcond =>
      cases hf : findSub p rest with
      | none => rw [hf] at h; simp at h
      | some kk =>
        rw [hf] at h
        simp only [Option.map_some'] at h
        injection h with h'
        subst h'
        exact occursAt_cons (ih hf)

theorem findSub_exists {p t : List Char} : ∀ {k}, occursAt p t k →
    (findSub p t).isSome = true := by
  induction t with
  | nil =>
    intro k h
    obtain ⟨h1, h2⟩ := h
    have hk : k = 0 := by simpa using h1
    subst hk
    simp only [List.drop_nil] at h2
    unfold findSub
    simp [h2]
  | cons c rest ih =>
    intro k h
    unfold findSub
    split
    · simp
    next hcond =>
      cases k with
      | zero =>
        obtain ⟨h1, h2⟩ := h
        rw [List.drop_zero] at h2
        exact absurd h2 hcond
      | succ kk =>
        obtain ⟨h1, h2⟩ := h
        have hrest : occursAt p rest kk :=
          ⟨by simp only [List.length_cons] at h1; omega, by simpa using h2⟩
        have hs := ih hrest
        cases hf : findSub p rest with
        | none => rw [hf] at hs; simp at hs
        | some kk2 => simp [hf]

theorem containsSub_iff (p t : List Char) :
    containsSub p t = true ↔ ∃ u v, t = u ++ p ++ v := by
  unfold containsSub
  constructor
  · intro h
    cases hf : findSub p t with
    | none => rw [hf] at h; simp at h
    | some k =>
      obtain ⟨h1, h2⟩ := findSub_sound hf
      obtain ⟨w, hw⟩ := (leads_iff ..).1 h2
      exact ⟨t.take k, w, by rw [List.append_assoc, ← hw, List.take_append_drop]⟩
  · rintro ⟨u, v, rfl⟩
    apply findSub_exists (k := u.length)
    refine ⟨by simp only [List.append_assoc, List.length_append]; omega, ?_⟩
    rw [List.append_assoc, List.drop_left]
    exact leads_append_self p v

theorem findSub_skip {p : List Char} (u v : List Char)
    (h : ∀ j, j < u.length → leads p ((u ++ v).drop j) = false) :
    findSub p (u ++ v) = (findSub p v).map (· + u.length) := by
  induction u with
  | nil =>
    simp only [List.nil_append, List.length_nil]
    cases hm : findSub p v <;> simp
  | cons a u ih =>
    have h0 : leads p (a :: (u ++ v)) = false := by simpa using h 0 (by simp)
    have hrec : ∀ j, j < u.length → leads p ((u ++ v).drop j) = false := by
      intro j hj
      have hh := h (j + 1) (by simp only [List.length_cons]; omega)
      simpa using hh
    rw [List.cons_append]
    simp only [findSub]
    rw [if_neg (by simp [h0]), ih hrec, Option.map_map]
    cases hm : findSub p v <;> simp [hm, Nat.add_assoc]

theorem findMatch_start {s e t : List Char} {k : Nat} (h1 : leads s t = true)
    (h2 : findSub e (t.drop s.length) = some k) :
    findMatch s e t = some (0, s.length + k + e.length) := by
  cases t with
  | nil =>
    rw [List.drop_nil] at h2
    simp [findMatch, h1, h2]
  | cons c rest => simp [findMatch, h1, h2]

theorem findMatch_skip {s e : List Char} (u v : List Char)
    (h : ∀ j, j < u.length → leads s ((u ++ v).drop j) = false) :
    findMatch s e (u ++ v) = (findMatch s e v).map (fun q => (q.1 + u.length, q.2)) := by
  induction u with
  | nil =>
    simp only [List.nil_append, List.length_nil]
    cases hm : findMatch s e v <;> simp
  | cons a u ih =>
    have h0 : leads s (a :: (u ++ v)) = false := by simpa using h 0 (by simp)
    have hrec : ∀ j, j < u.length → leads s ((u ++ v).drop j) = false := by
      intro j hj
      have hh := h (j + 1) (by simp only [List.length_cons]; omega)
      simpa using hh
    rw [List.cons_append]
    simp only [findMatch]
    rw [if_neg (by simp [h0]), ih hrec, Option.map_map]
    cases hm : findMatch s e v <;> simp [hm, Nat.add_assoc]

theorem findMatch_nil_sp {s e : List Char} {i sp : Nat}
    (h : findMatch s e [] = some (i, sp)) : sp = 0 := by
  cases s with
  | cons a s2 => simp [findMatch, leads] at h
  | nil =>
    cases e with
    | cons b e2 => simp [findMatch, findSub, leads] at h
    | nil =>
      simp only [findMatch, findSub, leads, if_true] at h
      injection h with h'
      injection h' with ha hb
      simp only [List.length_nil] at hb
      omega

theorem findMatch_sound {s e t : List Char} : ∀ {i sp}, findMatch s e t = some (i, sp) →
    occursAt s t i ∧
      ∃ k, occursAt e (t.drop (i + s.length)) k ∧ sp = s.length + k + e.length := by
  induction t with
  | nil =>
    intro i sp h
    unfold findMatch at h
    split at h
    next hcond =>
      cases hf : findSub e [] with
      | none => rw [hf] at h; simp at h
      | some k =>
        rw [hf] at h
        injection h with h'
        injection h' with ha hb
        subst ha
        refine ⟨⟨Nat.zero_le _, by simpa using hcond⟩, k, ?_, hb.symm⟩
        rw [List.drop_nil] at *
        exact findSub_sound hf
    next => simp at h
  | cons c rest ih =>
    intro i sp h
    unfold findMatch at h
    split at h
    next hcond =>
      cases hf : findSub e ((c :: rest).drop s.length) with
      | some k =>
        rw [hf] at h
        injection h with h'
        injection h' with ha hb
        subst ha
        exact ⟨⟨Nat.zero_le _, by simpa using hcond⟩, k,
          by rw [Nat.zero_add]; exact findSub_sound hf, hb.symm⟩
      | none =>
        rw [hf] at h
        cases hm : findMatch s e rest with
        | none => rw [hm] at h; simp at h
        | some q =>
          obtain ⟨i2, sp2⟩ := q
          rw [hm] at h
          simp only [Option.map_some'] at h
          injection h with h'
          injection h' with ha hb
          subst ha hb
          obtain ⟨hocc, k, hocce, hsp⟩ := ih hm
          refine ⟨occursAt_cons hocc, k, ?_, hsp⟩
          have hd : (c :: rest).drop (i2 + 1 + s.length) = rest.drop (i2 + s.length) := by
            have harr : i2 + 1 + s.length = (i2 + s.length) + 1 := by omega
            rw [harr, List.drop_succ_cons]
          rw [hd]
          exact hocce
    next hcond =>
      cases hm : findMatch s e rest with
      | none => rw [hm] at h; simp at h
      | some q =>
        obtain ⟨i2, sp2⟩ := q
        rw [hm] at h
        simp only [Option.map_some'] at h
        injection h with h'
        injection h' with ha hb
        subst ha hb
        obtain ⟨hocc, k, hocce, hsp⟩ := ih hm
        refine ⟨occursAt_cons hocc, k, ?_, hsp⟩
        have hd : (c :: rest).drop (i2 + 1 + s.length) = rest.drop (i2 + s.length) := by
          have harr : i2 + 1 + s.length = (i2 + s.length) + 1 := by omega
          rw [harr, List.drop_succ_cons]
        rw [hd]
        exact hocce

theorem subAll_fuel (s e r : List Char) : ∀ f1 : Nat, ∀ f2 t, t.length < f1 →
    t.length < f2 → subAll f1 s e r t = subAll f2 s e r t := by
  intro f1
  induction f1 with
  | zero => intro f2 t h1 h2; exact absurd h1 (Nat.not_lt_zero _)
  | succ n ih =>
    intro f2 t h1 h2
    cases f2 with
    | zero => exact absurd h2 (Nat.not_lt_zero _)
    | succ m =>
      cases hm : findMatch s e t with
      | none => simp only [subAll, hm]
      | some q =>
        obtain ⟨i, sp⟩ := q
        by_cases hsp : sp = 0
        · subst hsp
          cases hd : t.drop i with
          | nil => simp [subAll, hm, hd]
          | cons c rest =>
            have hld := List.length_drop i t
            rw [hd] at hld
            simp only [List.length_cons] at hld
            simp [subAll, hm, hd]
            rw [ih m rest (by omega) (by omega)]
        · have hne : t ≠ [] := by
            intro ht
            subst ht
            exact hsp (findMatch_nil_sp hm)
          have hpos : 0 < t.length := List.length_pos.mpr hne
          simp only [subAll, hm, if_neg hsp]
          have hlen : (t.drop (i + sp)).length < n ∧ (t.drop (i + sp)).length < m := by
            rw [List.length_drop]
            omega
          rw [ih m _ hlen.1 hlen.2]

theorem rbm_none {s e t r : List Char} (h : findMatch s e t = none) :
    replace_between_markers t s e r = t := by
  unfold replace_between_markers
  simp only [subAll, h]

theorem rbm_pos {s e t r : List Char} {i sp : Nat}
    (h : findMatch s e t = some (i, sp)) (hsp : 0 < sp) :
    replace_between_markers t s e r
      = t.take i ++ block s e r ++ replace_between_markers (t.drop (i + sp)) s e r := by
  have hne : t ≠ [] := by
    intro ht
    subst ht
    have := findMatch_nil_sp h
    omega
  have hpos : 0 < t.length := List.length_pos.mpr hne
  have key : subAll (t.length + 1) s e (block s e r) t
      = t.take i ++ block s e r ++ subAll t.length s e (block s e r) (t.drop (i + sp)) := by
    simp only [subAll, h]
    rw [if_neg (by omega)]
  have hfuel : subAll t.length s e (block s e r) (t.drop (i + sp))
      = subAll ((t.drop (i + sp)).length + 1) s e (block s e r) (t.drop (i + sp)) := by
    apply subAll_fuel
    · rw [List.length_drop]; omega
    · omega
  unfold replace_between_markers
  rw [key, hfuel]

theorem occursAt_mem_iff (p t : List Char) (i : Nat) :
    i ∈ (List.range (t.length + 1)).filter (fun j => leads p (t.drop j)) ↔ occursAt p t i := by
  simp [List.mem_filter, List.mem_range, occursAt, Nat.lt_succ_iff]

theorem nodup_all_eq {l : List Nat} {a : Nat} (hn : l.Nodup) (ha : a ∈ l)
    (he : ∀ x ∈ l, x = a) : l = [a] := by
  cases l with
  | nil => cases ha
  | cons x l2 =>
    have hx : x = a := he x (by simp)
    subst hx
    cases l2 with
    | nil => rfl
    | cons y l3 =>
      have hy : y = x := he y (by simp)
      rw [List.nodup_cons] at hn
      exact absurd (by simp [hy.symm] : x ∈ y :: l3) hn.1

theorem countOcc_eq_one {p t : List Char} {i0 : Nat} (h0 : occursAt p t i0)
    (hu : ∀ j, occursAt p t j → j = i0) : countOcc p t = 1 := by
  unfold countOcc
  rw [nodup_all_eq ((List.nodup_range _).filter _) ((occursAt_mem_iff p t i0).mpr h0)
    (fun x hx => hu x ((occursAt_mem_iff p t x).mp hx))]
  rfl

theorem countOcc_unique {p t : List Char} (h1 : countOcc p t = 1) {i0 : Nat}
    (h0 : occursAt p t i0) : ∀ j, occursAt p t j → j = i0 := by
  unfold countOcc at h1
  obtain ⟨a, ha⟩ := List.length_eq_one.mp h1
  intro j hj
  have hm0 := (occursAt_mem_iff p t i0).mpr h0
  have hmj := (occursAt_mem_iff p t j).mpr hj
  rw [ha] at hm0 hmj
  simp only [List.mem_singleton] at hm0 hmj
  omega

theorem countOcc_nil_left (t : List Char) : countOcc [] t = t.length + 1 := by
  unfold countOcc
  simp only [leads]
  rw [List.filter_true, List.length_range]

theorem block_eq (s e r : List Char) : block s e r = s ++ (('\n' :: (r ++ ['\n'])) ++ e) := by
  simp [block]
theorem splice_once {s e X pre mid suf : List Char} (hs : s ≠ [])
    (uS : ∀ j, occursAt s (pre ++ (s ++ (mid ++ (e ++ suf)))) j → j = pre.length)
    (uE : ∀ j, occursAt e (pre ++ (s ++ (mid ++ (e ++ suf)))) j →
      j = pre.length + s.length + mid.length) :
    replace_between_markers (pre ++ (s ++ (mid ++ (e ++ suf)))) s e X
      = pre ++ (block s e X ++ suf) := by
  have hs1 : 1 ≤ s.length := List.length_pos.mpr hs
  have hpre : ∀ j, j < pre.length →
      leads s ((pre ++ (s ++ (mid ++ (e ++ suf)))).drop j) = false := by
    intro j hj
    by_contra hcon
    have hocc : occursAt s (pre ++ (s ++ (mid ++ (e ++ suf)))) j :=
      ⟨by simp only [List.length_append]; omega, by simpa using hcon⟩
    have := uS j hocc
    omega
  have hmid : ∀ j, j < mid.length → leads e ((mid ++ (e ++ suf)).drop j) = false := by
    intro j hj
    by_contra hcon
    have hocc : occursAt e (mid ++ (e ++ suf)) j :=
      ⟨by simp only [List.length_append]; omega, by simpa using hcon⟩
    have hocc2 := occ_shift (u := pre ++ s) hocc
    have hocc3 : occursAt e (pre ++ (s ++ (mid ++ (e ++ suf)))) ((pre ++ s).length + j) := by
      rw [show pre ++ (s ++ (mid ++ (e ++ suf))) = (pre ++ s) ++ (mid ++ (e ++ suf)) from by
        simp [List.append_assoc]]
      exact hocc2
    have := uE _ hocc3
    simp only [List.length_append] at this
    omega
  have hv : findMatch s e (s ++ (mid ++ (e ++ suf)))
      = some (0, s.length + mid.length + e.length) := by
    apply findMatch_start (leads_append_self s _)
    rw [List.drop_left]
    rw [findSub_skip mid (e ++ suf) hmid, findSub_self]
    simp
  have hfm : findMatch s e (pre ++ (s ++ (mid ++ (e ++ suf))))
      = some (pre.length, s.length + mid.length + e.length) := by
    rw [findMatch_skip pre (s ++ (mid ++ (e ++ suf))) hpre, hv]
    simp
  have hnomatch : findMatch s e suf = none := by
    cases hm2 : findMatch s e suf with
    | none => rfl
    | some q =>
      obtain ⟨i2, sp2⟩ := q
      obtain ⟨hocc, -⟩ := findMatch_sound hm2
      have hocc2 := occ_shift (u := pre ++ (s ++ (mid ++ e))) hocc
      have hocc3 : occursAt s (pre ++ (s ++ (mid ++ (e ++ suf))))
          ((pre ++ (s ++ (mid ++ e))).length + i2) := by
        rw [show pre ++ (s ++ (mid ++ (e ++ suf)))
          = (pre ++ (s ++ (mid ++ e))) ++ suf from by simp [List.append_assoc]]
        exact hocc2
      have := uS _ hocc3
      simp only [List.length_append] at this
      omega
  rw [rbm_pos hfm (by omega)]
  have htake : (pre ++ (s ++ (mid ++ (e ++ suf)))).take pre.length = pre :=
    List.take_left pre _
  have hdrop : (pre ++ (s ++ (mid ++ (e ++ suf)))).drop
      (pre.length + (s.length + mid.length + e.length)) = suf := by
    rw [show pre ++ (s ++ (mid ++ (e ++ suf))) = (pre ++ (s ++ (mid ++ e))) ++ suf from by
      simp [List.append_assoc]]
    rw [show pre.length + (s.length + mid.length + e.length)
      = (pre ++ (s ++ (mid ++ e))).length from by simp only [List.length_append]; omega]
    exact List.drop_left _ _
  rw [htake, hdrop, rbm_none hnomatch, List.append_assoc]

theorem splice_uniq_s {s e inner pre mid suf : List Char} (hs : s ≠ []) (hinner : inner ≠ [])
    (uS : ∀ j, occursAt s (pre ++ (s ++ (mid ++ (e ++ suf)))) j → j = pre.length)
    (bS : ∀ j, occursAt s (s ++ (inner ++ e)) j → j = 0)
    (bE : ∀ j, occursAt e (s ++ (inner ++ e)) j → j = s.length + inner.length) :
    ∀ j, occursAt s (pre ++ (s ++ (inner ++ (e ++ suf)))) j → j = pre.length := by
  have hs1 : 1 ≤ s.length := List.length_pos.mpr hs
  have hi1 : 1 ≤ inner.length := List.length_pos.mpr hinner
  intro j hj
  have hjlen := hj.1
  simp only [List.length_append] at hjlen
  by_cases hc1 : j ≤ pre.length
  · have hj2 : occursAt s ((pre ++ s) ++ (inner ++ (e ++ suf))) j := by
      rw [show (pre ++ s) ++ (inner ++ (e ++ suf)) = pre ++ (s ++ (inner ++ (e ++ suf))) from by
        simp [List.append_assoc]]
      exact hj
    have hx := occ_extract_left hj2 (by simp only [List.length_append]; omega)
    have hy := occ_embed_left (mid ++ (e ++ suf)) hx
    apply uS
    rw [show pre ++ (s ++ (mid ++ (e ++ suf))) = (pre ++ s) ++ (mid ++ (e ++ suf)) from by
      simp [List.append_assoc]]
    exact hy
  · by_cases hc2 : j + s.length ≤ pre.length + (s.length + inner.length + e.length)
    · have hx := occ_unshift hj (by omega : pre.length ≤ j)
      have hx2 : occursAt s ((s ++ (inner ++ e)) ++ suf) (j - pre.length) := by
        rw [show (s ++ (inner ++ e)) ++ suf = s ++ (inner ++ (e ++ suf)) from by
          simp [List.append_assoc]]
        exact hx
      have hx3 := occ_extract_left hx2 (by simp only [List.length_append]; omega)
      have := bS _ hx3
      omega
    · by_cases hc3 : pre.length + (s.length + inner.length) ≤ j
      · have hj2 : occursAt s ((pre ++ (s ++ inner)) ++ (e ++ suf)) j := by
          rw [show (pre ++ (s ++ inner)) ++ (e ++ suf)
            = pre ++ (s ++ (inner ++ (e ++ suf))) from by simp [List.append_assoc]]
          exact hj
        have hx := occ_unshift hj2 (by simp only [List.length_append]; omega)
        simp only [List.length_append] at hx
        have hy := occ_shift (u := pre ++ (s ++ mid)) hx
        have hy2 : occursAt s (pre ++ (s ++ (mid ++ (e ++ suf))))
            ((pre ++ (s ++ mid)).length + (j - (pre.length + (s.length + inner.length)))) := by
          rw [show pre ++ (s ++ (mid ++ (e ++ suf))) = (pre ++ (s ++ mid)) ++ (e ++ suf) from by
            simp [List.append_assoc]]
          exact hy
        have := uS _ hy2
        simp only [List.length_append] at this
        omega
      · have hq : occursAt e (pre ++ (s ++ (inner ++ (e ++ suf))))
            (pre.length + (s.length + inner.length)) := by
          refine ⟨by simp only [List.length_append]; omega, ?_⟩
          rw [show pre ++ (s ++ (inner ++ (e ++ suf)))
            = (pre ++ (s ++ inner)) ++ (e ++ suf) from by simp [List.append_assoc]]
          rw [show pre.length + (s.length + inner.length) = (pre ++ (s ++ inner)).length from by
            simp only [List.length_append]]
          rw [List.drop_left]
          exact leads_append_self e suf
        have hw := occ_within hj hq (by omega) (by omega)
        have hocc : occursAt e (s ++ (inner ++ e))
            (pre.length + (s.length + inner.length) - j) := by
          refine ⟨by simp only [List.length_append]; omega, ?_⟩
          rw [List.drop_append_of_le_length (by omega)]
          exact leads_append_ext _ hw
        have := bE _ hocc
        omega

theorem splice_uniq_e {s e inner pre mid suf : List Char} (hs : s ≠ []) (he : e ≠ [])
    (hinner : inner ≠ [])
    (uE : ∀ j, occursAt e (pre ++ (s ++ (mid ++ (e ++ suf)))) j →
      j = pre.length + s.length + mid.length)
    (bS : ∀ j, occursAt s (s ++ (inner ++ e)) j → j = 0)
    (bE : ∀ j, occursAt e (s ++ (inner ++ e)) j → j = s.length + inner.length) :
    ∀ j, occursAt e (pre ++ (s ++ (inner ++ (e ++ suf)))) j →
      j = pre.length + s.length + inner.length := by
  have hs1 : 1 ≤ s.length := List.length_pos.mpr hs
  have he1 : 1 ≤ e.length := List.length_pos.mpr he
  have hi1 : 1 ≤ inner.length := List.length_pos.mpr hinner
  intro j hj
  have hjlen := hj.1
  simp only [List.length_append] at hjlen
  by_cases hc1 : j + e.length ≤ pre.length + s.length
  · have hj2 : occursAt e ((pre ++ s) ++ (inner ++ (e ++ suf))) j := by
      rw [show (pre ++ s) ++ (inner ++ (e ++ suf)) = pre ++ (s ++ (inner ++ (e ++ suf))) from by
        simp [List.append_assoc]]
      exact hj
    have hx := occ_extract_left hj2 (by simp only [List.length_append]; omega)
    have hy := occ_embed_left (mid ++ (e ++ suf)) hx
    have hy2 : occursAt e (pre ++ (s ++ (mid ++ (e ++ suf)))) j := by
      rw [show pre ++ (s ++ (mid ++ (e ++ suf))) = (pre ++ s) ++ (mid ++ (e ++ suf)) from by
        simp [List.append_assoc]]
      exact hy
    have := uE _ hy2
    omega
  · by_cases hc2 : pre.length ≤ j ∧
        j + e.length ≤ pre.length + (s.length + inner.length + e.length)
    · have hx := occ_unshift hj hc2.1
      have hx2 : occursAt e ((s ++ (inner ++ e)) ++ suf) (j - pre.length) := by
        rw [show (s ++ (inner ++ e)) ++ suf = s ++ (inner ++ (e ++ suf)) from by
          simp [List.append_assoc]]
        exact hx
      have hx3 := occ_extract_left hx2 (by simp only [List.length_append]; omega)
      have := bE _ hx3
      omega
    · by_cases hc3 : pre.length + (s.length + inner.length) ≤ j
      · have hj2 : occursAt e ((pre ++ (s ++ inner)) ++ (e ++ suf)) j := by
          rw [show (pre ++ (s ++ inner)) ++ (e ++ suf)
            = pre ++ (s ++ (inner ++ (e ++ suf))) from by simp [List.append_assoc]]
          exact hj
        have hx := occ_unshift hj2 (by simp only [List.length_append]; omega)
        simp only [List.length_append] at hx
        have hy := occ_shift (u := pre ++ (s ++ mid)) hx
        have hy2 : occursAt e (pre ++ (s ++ (mid ++ (e ++ suf))))
            ((pre ++ (s ++ mid)).length + (j - (pre.length + (s.length + inner.length)))) := by
          rw [show pre ++ (s ++ (mid ++ (e ++ suf))) = (pre ++ (s ++ mid)) ++ (e ++ suf) from by
            simp [List.append_assoc]]
          exact hy
        have := uE _ hy2
        simp only [List.length_append] at this
        omega
      · have hcP : j < pre.length := by omega
        have hP : occursAt s (pre ++ (s ++ (inner ++ (e ++ suf)))) pre.length := by
          refine ⟨by simp only [List.length_append]; omega, ?_⟩
          rw [List.drop_left]
          exact leads_append_self s _
        have hw := occ_within hj hP (by omega) (by omega)
        have hdrop : (s ++ (inner ++ e)).drop (s.length + inner.length + (pre.length - j))
            = e.drop (pre.length - j) := by
          rw [show s ++ (inner ++ e) = (s ++ inner) ++ e from by simp [List.append_assoc]]
          rw [show s.length + inner.length + (pre.length - j)
            = (s ++ inner).length + (pre.length - j) from by simp only [List.length_append]]
          rw [← List.drop_drop, List.drop_left]
        have hocc : occursAt s (s ++ (inner ++ e))
            (s.length + inner.length + (pre.length - j)) := by
          refine ⟨by simp only [List.length_append]; omega, ?_⟩
          rw [hdrop]
          exact hw
        have := bS _ hocc
        omega

/-- C1 counterexample: on `"aSxEbSyEc"` with markers `"S"`/`"E"` and
replacement `"r"`, `replace_between_markers` also rewrites the second span
`"SyE"`, so the output differs from the one the claim describes (first span
replaced, later span untouched). -/
theorem C1_counterexample :
    (findMatch "S".toList "E".toList "aSxEbSyEc".toList).isSome = true ∧
    replace_between_markers "aSxEbSyEc".toList "S".toList "E".toList "r".toList
      = "aS\nr\nEbS\nr\nEc".toList ∧
    replace_between_markers "aSxEbSyEc".toList "S".toList "E".toList "r".toList
      ≠ "aS\nr\nEbSyEc".toList :=
  ⟨by decide, by decide, by decide⟩

/-- C1 (amended): for a non-empty start marker, whenever the pattern matches,
`replace_between_markers` replaces the first non-greedy span (markers
included, at offset `i`, of length `sp`) by `start + "\n" + replacement +
"\n" + end`, and then continues on the rest of the text, replacing every
later non-overlapping span the same way (rather than leaving them
untouched). -/
theorem C1_replaces_every_span {s e r t : List Char} {i sp : Nat} (hs : s ≠ [])
    (h : findMatch s e t = some (i, sp)) :
    replace_between_markers t s e r
      = t.take i ++ block s e r ++ replace_between_markers (t.drop (i + sp)) s e r := by
  obtain ⟨-, k, -, hsp⟩ := findMatch_sound h
  have hpos : 0 < sp := by
    have := List.length_pos.mpr hs
    omega
  exact rbm_pos h hpos

/-- Witness for C1's amended theorem at a concrete two-span input. -/
theorem C1_replaces_every_span_witness :
    "S".toList ≠ ([] : List Char) ∧
    findMatch "S".toList "E".toList "aSxEbSyEc".toList = some (1, 3) ∧
    replace_between_markers "aSxEbSyEc".toList "S".toList "E".toList "r".toList
      = ("aSxEbSyEc".toList.take 1) ++ block "S".toList "E".toList "r".toList
        ++ replace_between_markers ("aSxEbSyEc".toList.drop 4)
            "S".toList "E".toList "r".toList :=
  ⟨by decide, by decide,
    @C1_replaces_every_span "S".toList "E".toList "r".toList "aSxEbSyEc".toList 1 3
      (by decide) (by decide)⟩

/-- C4: when the marker pair does not occur in the text (no position carries
the start marker with the end marker at or after its end),
`replace_between_markers` returns the text exactly unchanged (and, being a
total function, raises no error). -/
theorem C4_no_marker_noop (t s e r : List Char)
    (h : ∀ i, i ≤ t.length → ∀ j, j ≤ t.length →
      ¬(occursAt s t i ∧ i + s.length ≤ j ∧ occursAt e t j)) :
    replace_between_markers t s e r = t := by
  have hnone : findMatch s e t = none := by
    cases hm : findMatch s e t with
    | none => rfl
    | some q =>
      obtain ⟨i, sp⟩ := q
      obtain ⟨hoccS, k, hoccE, -⟩ := findMatch_sound hm
      have hsl : i + s.length ≤ t.length := by
        have h1 := hoccS.1
        have h2 := leads_length hoccS.2
        rw [List.length_drop] at h2
        omega
      have hoccE2 : occursAt e t (i + s.length + k) := by
        have hsh := occ_shift (u := t.take (i + s.length)) hoccE
        rw [List.take_append_drop] at hsh
        rwa [List.length_take, Nat.min_eq_left hsl] at hsh
      exact absurd ⟨hoccS, by omega, hoccE2⟩
        (h i (by omega) (i + s.length + k) hoccE2.1)
  exact rbm_none hnone

/-- Witness for C4 on a marker-free text. -/
theorem C4_no_marker_noop_witness :
    (∀ i, i ≤ ("hello".toList).length → ∀ j, j ≤ ("hello".toList).length →
      ¬(occursAt "S".toList "hello".toList i ∧ i + ("S".toList).length ≤ j ∧
        occursAt "E".toList "hello".toList j)) ∧
    replace_between_markers "hello".toList "S".toList "E".toList "r".toList
      = "hello".toList :=
  ⟨by decide, C4_no_marker_noop _ _ _ _ (by decide)⟩

/-- C10: `replace_between_markers` is a frame-preserving rewrite: with no
match the text is returned verbatim; on a match at offset `i` of length `sp`,
the prefix `t.take i` before the matched start marker is kept verbatim, the
span is replaced by the block, and the suffix after the matched end marker is
passed through the same procedure — so it is returned verbatim when it
contains no further span. -/
theorem C10_frame (s e r t : List Char) (hs : s ≠ []) :
    (findMatch s e t = none → replace_between_markers t s e r = t) ∧
    (∀ i sp, findMatch s e t = some (i, sp) →
      replace_between_markers t s e r
        = t.take i ++ block s e r ++ replace_between_markers (t.drop (i + sp)) s e r ∧
      (findMatch s e (t.drop (i + sp)) = none →
        replace_between_markers t s e r = t.take i ++ block s e r ++ t.drop (i + sp))) := by
  constructor
  · exact rbm_none
  · intro i sp h
    have hsp : 0 < sp := by
      obtain ⟨-, k, -, hspk⟩ := findMatch_sound h
      have := List.length_pos.mpr hs
      omega
    refine ⟨rbm_pos h hsp, fun hnone => ?_⟩
    rw [rbm_pos h hsp, rbm_none hnone]

/-- Witness for C10 on a single-span text: prefix and suffix around the span
come back verbatim. -/
theorem C10_frame_witness :
    replace_between_markers "aSxEb".toList "S".toList "E".toList "r".toList
      = ("aSxEb".toList.take 1) ++ block "S".toList "E".toList "r".toList
        ++ ("aSxEb".toList.drop 4) :=
  ((C10_frame "S".toList "E".toList "r".toList "aSxEb".toList (by decide)).2
    1 3 (by decide)).2 (by decide)

/-- C5 counterexample: `"ESE"` contains exactly one marker-pair span for
markers `"S"`/`"E"`, and the replacements contain no marker, yet after
splicing `"a"` and then `"b"` the end marker occurs twice (the stray leading
`"E"` plus the one in the spliced block), refuting the claim as stated. -/
theorem C5_counterexample :
    countSpans "S".toList "E".toList "ESE".toList = 1 ∧
    containsSub "S".toList "a".toList = false ∧
    containsSub "E".toList "a".toList = false ∧
    containsSub "S".toList "b".toList = false ∧
    containsSub "E".toList "b".toList = false ∧
    countOcc "E".toList
      (replace_between_markers
        (replace_between_markers "ESE".toList "S".toList "E".toList "a".toList)
        "S".toList "E".toList "b".toList) ≠ 1 :=
  ⟨by decide, by decide, by decide, by decide, by decide, by decide⟩

/-- C5 (amended): if the start marker occurs exactly once in the text (at
`iS`), the end marker occurs exactly once (at `iE`, at or after the end of
the start marker's occurrence), and each marker occurs exactly once in each
spliced block `start + "\n" + X + "\n" + end` (for `X = A` and `X = B`), then
splicing `A` and then `B` rewrites exactly the original span: the result is
the original prefix, the block around `B`, and the original suffix, and each
marker occurs exactly once in it — the region holds only the latest content
and does not accumulate. -/
theorem C5_splice_idempotent_region {t s e A B : List Char} {iS iE : Nat}
    (hoS : occursAt s t iS) (h1S : countOcc s t = 1)
    (hoE : occursAt e t iE) (h1E : countOcc e t = 1)
    (hord : iS + s.length ≤ iE)
    (hbSA : countOcc s (block s e A) = 1) (hbEA : countOcc e (block s e A) = 1)
    (hbSB : countOcc s (block s e B) = 1) (hbEB : countOcc e (block s e B) = 1) :
    replace_between_markers (replace_between_markers t s e A) s e B
      = t.take iS ++ block s e B ++ t.drop (iE + e.length) ∧
    countOcc s (replace_between_markers (replace_between_markers t s e A) s e B) = 1 ∧
    countOcc e (replace_between_markers (replace_between_markers t s e A) s e B) = 1 := by
  -- the count hypotheses on the blocks force both markers to be non-empty
  have hs : s ≠ [] := by
    intro h0
    subst h0
    rw [countOcc_nil_left] at hbSA
    simp only [block, List.nil_append, List.length_cons, List.length_append] at hbSA
    omega
  have he : e ≠ [] := by
    intro h0
    subst h0
    rw [countOcc_nil_left] at hbEA
    simp only [block, List.length_append, List.length_cons] at hbEA
    omega
  have hs1 : 1 ≤ s.length := List.length_pos.mpr hs
  have he1 : 1 ≤ e.length := List.length_pos.mpr he
  have hiSle : iS ≤ t.length := hoS.1
  have hiEle : iE ≤ t.length := hoE.1
  have hiEe : iE + e.length ≤ t.length := by
    have h2 := leads_length hoE.2
    rw [List.length_drop] at h2
    omega
  -- decompose the text around the two unique occurrences
  obtain ⟨w, hw⟩ := (leads_iff ..).1 hoS.2
  obtain ⟨w2, hw2⟩ := (leads_iff ..).1 hoE.2
  have d1 : t.drop iS = s ++ t.drop (iS + s.length) := by
    have hwv : w = t.drop (iS + s.length) :=
      calc w = (s ++ w).drop s.length := (List.drop_left s w).symm
        _ = (t.drop iS).drop s.length := by rw [← hw]
        _ = t.drop (iS + s.length) := by rw [List.drop_drop]
    rw [hw, hwv]
  have d2 : t.drop iE = e ++ t.drop (iE + e.length) := by
    have hwv : w2 = t.drop (iE + e.length) :=
      calc w2 = (e ++ w2).drop e.length := (List.drop_left e w2).symm
        _ = (t.drop iE).drop e.length := by rw [← hw2]
        _ = t.drop (iE + e.length) := by rw [List.drop_drop]
    rw [hw2, hwv]
  have d3 : t.drop (iS + s.length)
      = (t.drop (iS + s.length)).take (iE - (iS + s.length)) ++ t.drop iE := by
    have htd := List.take_append_drop (iE - (iS + s.length)) (t.drop (iS + s.length))
    rw [List.drop_drop] at htd
    rw [show iS + s.length + (iE - (iS + s.length)) = iE from by omega] at htd
    exact htd.symm
  have hdec : t = t.take iS ++ (s ++ ((t.drop (iS + s.length)).take (iE - (iS + s.length))
      ++ (e ++ t.drop (iE + e.length)))) := by
    conv_lhs => rw [← List.take_append_drop iS t, d1, d3, d2]
  have hPlen : (t.take iS).length = iS := by
    rw [List.length_take, Nat.min_eq_left hiSle]
  have hMlen : ((t.drop (iS + s.length)).take (iE - (iS + s.length))).length
      = iE - (iS + s.length) := by
    rw [List.length_take, List.length_drop, Nat.min_eq_left (by omega)]
  -- uniqueness of the marker occurrences, in the decomposed shape
  have uS0 := countOcc_unique h1S hoS
  have uE0 := countOcc_unique h1E hoE
  have uS : ∀ j, occursAt s (t.take iS ++ (s ++ ((t.drop (iS + s.length)).take
      (iE - (iS + s.length)) ++ (e ++ t.drop (iE + e.length))))) j →
      j = (t.take iS).length := by
    intro j hj
    rw [← hdec] at hj
    rw [hPlen]
    exact uS0 j hj
  have uE : ∀ j, occursAt e (t.take iS ++ (s ++ ((t.drop (iS + s.length)).take
      (iE - (iS + s.length)) ++ (e ++ t.drop (iE + e.length))))) j →
      j = (t.take iS).length + s.length
        + ((t.drop (iS + s.length)).take (iE - (iS + s.length))).length := by
    intro j hj
    rw [← hdec] at hj
    rw [hPlen, hMlen]
    have := uE0 j hj
    omega
  -- block structure and uniqueness of marker occurrences inside the blocks
  have hb0A : occursAt s (s ++ (('\n' :: (A ++ ['\n'])) ++ e)) 0 :=
    ⟨Nat.zero_le _, by rw [List.drop_zero]; exact leads_append_self s _⟩
  have hb0B : occursAt s (s ++ (('\n' :: (B ++ ['\n'])) ++ e)) 0 :=
    ⟨Nat.zero_le _, by rw [List.drop_zero]; exact leads_append_self s _⟩
  have hee : leads e e = true := by
    have hx := leads_append_self e []
    rwa [List.append_nil] at hx
  have hbLA : occursAt e (s ++ (('\n' :: (A ++ ['\n'])) ++ e))
      (s.length + ('\n' :: (A ++ ['\n'])).length) := by
    refine ⟨by simp only [List.length_append]; omega, ?_⟩
    have hdr : (s ++ (('\n' :: (A ++ ['\n'])) ++ e)).drop
        (s.length + ('\n' :: (A ++ ['\n'])).length) = e := by
      rw [show s ++ (('\n' :: (A ++ ['\n'])) ++ e)
        = (s ++ ('\n' :: (A ++ ['\n']))) ++ e from by simp [List.append_assoc]]
      rw [show s.length + ('\n' :: (A ++ ['\n'])).length
        = (s ++ ('\n' :: (A ++ ['\n']))).length from by simp only [List.length_append]]
      exact List.drop_left _ _
    rw [hdr]
    exact hee
  have hbLB : occursAt e (s ++ (('\n' :: (B ++ ['\n'])) ++ e))
      (s.length + ('\n' :: (B ++ ['\n'])).length) := by
    refine ⟨by simp only [List.length_append]; omega, ?_⟩
    have hdr : (s ++ (('\n' :: (B ++ ['\n'])) ++ e)).drop
        (s.length + ('\n' :: (B ++ ['\n'])).length) = e := by
      rw [show s ++ (('\n' :: (B ++ ['\n'])) ++ e)
        = (s ++ ('\n' :: (B ++ ['\n']))) ++ e from by simp [List.append_assoc]]
      rw [show s.length + ('\n' :: (B ++ ['\n'])).length
        = (s ++ ('\n' :: (B ++ ['\n']))).length from by simp only [List.length_append]]
      exact List.drop_left _ _
    rw [hdr]
    exact hee
  rw [block_eq] at hbSA hbEA hbSB hbEB
  have bSA := countOcc_unique hbSA hb0A
  have bEA := countOcc_unique hbEA hbLA
  have bSB := countOcc_unique hbSB hb0B
  have bEB := countOcc_unique hbEB hbLB
  have hinA : ('\n' :: (A ++ ['\n']) : List Char) ≠ [] := List.cons_ne_nil _ _
  have hinB : ('\n' :: (B ++ ['\n']) : List Char) ≠ [] := List.cons_ne_nil _ _
  -- first splice
  have hT1 : replace_between_markers t s e A
      = t.take iS ++ ((s ++ (('\n' :: (A ++ ['\n'])) ++ e)) ++ t.drop (iE + e.length)) := by
    conv_lhs => rw [hdec]
    rw [splice_once hs uS uE, block_eq]
  have hshapeA : t.take iS ++ ((s ++ (('\n' :: (A ++ ['\n'])) ++ e)) ++ t.drop (iE + e.length))
      = t.take iS ++ (s ++ (('\n' :: (A ++ ['\n'])) ++ (e ++ t.drop (iE + e.length)))) := by
    simp [List.append_assoc]
  have uS1 := splice_uniq_s hs hinA uS bSA bEA
  have uE1 := splice_uniq_e hs he hinA uE bSA bEA
  -- second splice
  have hT2 : replace_between_markers (replace_between_markers t s e A) s e B
      = t.take iS ++ ((s ++ (('\n' :: (B ++ ['\n'])) ++ e)) ++ t.drop (iE + e.length)) := by
    rw [hT1, hshapeA, splice_once hs uS1 uE1, block_eq]
  have hshapeB : t.take iS ++ ((s ++ (('\n' :: (B ++ ['\n'])) ++ e)) ++ t.drop (iE + e.length))
      = t.take iS ++ (s ++ (('\n' :: (B ++ ['\n'])) ++ (e ++ t.drop (iE + e.length)))) := by
    simp [List.append_assoc]
  have uS2 := splice_uniq_s hs hinB uS1 bSB bEB
  have uE2 := splice_uniq_e hs he hinB uE1 bSB bEB
  refine ⟨?_, ?_, ?_⟩
  · rw [hT2, block_eq]
    simp [List.append_assoc]
  · rw [hT2, hshapeB]
    refine countOcc_eq_one ?_ uS2
    exact ⟨by simp only [List.length_append]; omega,
      by rw [List.drop_left]; exact leads_append_self s _⟩
  · rw [hT2, hshapeB]
    refine countOcc_eq_one ?_ uE2
    · refine ⟨by simp only [List.length_append]; omega, ?_⟩
      have hdr : (t.take iS ++ (s ++ (('\n' :: (B ++ ['\n']))
          ++ (e ++ t.drop (iE + e.length))))).drop
          ((t.take iS).length + s.length + ('\n' :: (B ++ ['\n'])).length)
          = e ++ t.drop (iE + e.length) := by
        rw [show t.take iS ++ (s ++ (('\n' :: (B ++ ['\n'])) ++ (e ++ t.drop (iE + e.length))))
          = (t.take iS ++ (s ++ ('\n' :: (B ++ ['\n'])))) ++ (e ++ t.drop (iE + e.length))
          from by simp [List.append_assoc]]
        rw [show (t.take iS).length + s.length + ('\n' :: (B ++ ['\n'])).length
          = (t.take iS ++ (s ++ ('\n' :: (B ++ ['\n'])))).length from by
          simp only [List.length_append]; omega]
        exact List.drop_left _ _
      rw [hdr]
      exact leads_append_self e _

/-- Witness for C5's amended theorem on `"xSmEy"` with markers `"S"`/`"E"`. -/
theorem C5_splice_idempotent_region_witness :
    occursAt "S".toList "xSmEy".toList 1 ∧
    replace_between_markers (replace_between_markers "xSmEy".toList "S".toList "E".toList
        "a".toList) "S".toList "E".toList "b".toList
      = "xSmEy".toList.take 1 ++ block "S".toList "E".toList "b".toList
        ++ "xSmEy".toList.drop 4 :=
  ⟨by decide,
    (@C5_splice_idempotent_region "xSmEy".toList "S".toList "E".toList "a".toList "b".toList
      1 3 (by decide) (by decide) (by decide) (by decide) (by decide)
      (by decide) (by decide) (by decide) (by decide)).1⟩

theorem replaceAll_fuel (o n : List Char) : ∀ f1 : Nat, ∀ f2 t, t.length < f1 →
    t.length < f2 → replaceAll f1 o n t = replaceAll f2 o n t := by
  intro f1
  induction f1 with
  | zero => intro f2 t h1 h2; exact absurd h1 (Nat.not_lt_zero _)
  | succ a ih =>
    intro f2 t h1 h2
    cases f2 with
    | zero => exact absurd h2 (Nat.not_lt_zero _)
    | succ m =>
      cases hm : findSub o t with
      | none => simp only [replaceAll, hm]
      | some i =>
        by_cases ho : o.length = 0
        · cases hd : t.drop i with
          | nil => simp [replaceAll, hm, hd, ho]
          | cons c rest =>
            have hld := List.length_drop i t
            rw [hd] at hld
            simp only [List.length_cons] at hld
            simp only [replaceAll, hm, if_pos ho, hd]
            rw [ih m rest (by omega) (by omega)]
        · obtain ⟨hi, hl⟩ := findSub_sound hm
          have hol := leads_length hl
          rw [List.length_drop] at hol
          simp only [replaceAll, hm, if_neg ho]
          rw [ih m _ (by rw [List.length_drop]; omega) (by rw [List.length_drop]; omega)]

theorem findSub_none_not_mem {c : Char} {t : List Char}
    (h : findSub [c] t = none) : c ∉ t := by
  intro hmem
  obtain ⟨u, w, rfl⟩ := List.append_of_mem hmem
  have hocc : occursAt [c] (u ++ c :: w) u.length := by
    refine ⟨by simp only [List.length_append]; simp, ?_⟩
    rw [List.drop_left]
    simp [leads]
  have hx := findSub_exists hocc
  rw [h] at hx
  simp at hx

theorem expand_eq_self {c : Char} {new : List Char} {t : List Char}
    (h : ∀ x ∈ t, x ≠ c) : expand (fun a => if a = c then new else [a]) t = t := by
  induction t with
  | nil => rfl
  | cons a t ih =>
    simp only [expand]
    rw [if_neg (h a (by simp)), ih (fun x hx => h x (by simp [hx]))]
    rfl

theorem pyReplace_none {o n t : List Char} (hm : findSub o t = none) :
    pyReplace t o n = t := by
  unfold pyReplace
  simp only [replaceAll, hm]

theorem pyReplace_some {o n t : List Char} {i : Nat} (hm : findSub o t = some i)
    (ho : o ≠ []) :
    pyReplace t o n = t.take i ++ n ++ pyReplace (t.drop (i + o.length)) o n := by
  obtain ⟨hi, hl⟩ := findSub_sound hm
  have hol := leads_length hl
  rw [List.length_drop] at hol
  have ho1 : 1 ≤ o.length := List.length_pos.mpr ho
  have key : replaceAll (t.length + 1) o n t
      = t.take i ++ n ++ replaceAll t.length o n (t.drop (i + o.length)) := by
    simp only [replaceAll, hm]
    rw [if_neg (by omega)]
  have hfuel : replaceAll t.length o n (t.drop (i + o.length))
      = replaceAll ((t.drop (i + o.length)).length + 1) o n (t.drop (i + o.length)) := by
    apply replaceAll_fuel
    · rw [List.length_drop]; omega
    · omega
  unfold pyReplace
  rw [key, hfuel]

theorem pyReplace_char (c : Char) (new : List Char) :
    ∀ t, pyReplace t [c] new = expand (fun a => if a = c then new else [a]) t := by
  intro t
  induction t with
  | nil => rfl
  | cons a t2 ih =>
    by_cases hac : a = c
    · subst hac
      have hfs : findSub [a] (a :: t2) = some 0 := by simp [findSub, leads]
      rw [pyReplace_some hfs (by simp)]
      simp only [List.take_zero, List.nil_append, List.length_singleton, Nat.zero_add,
        List.drop_one, List.tail_cons, expand, if_pos rfl]
      exact congrArg (new ++ ·) ih
    · have hca : (c == a) = false := by
        rw [beq_eq_false_iff_ne]
        exact Ne.symm hac
      have hlf : leads [c] (a :: t2) = false := by simp [leads, hca]
      cases hft : findSub [c] t2 with
      | none =>
        have hfs : findSub [c] (a :: t2) = none := by simp [findSub, hlf, hft]
        rw [pyReplace_none hfs]
        have hnm : ∀ x ∈ a :: t2, x ≠ c := by
          intro x hx
          rcases List.mem_cons.mp hx with h0 | h0
          · subst h0; exact hac
          · intro hxc; subst hxc; exact findSub_none_not_mem hft h0
        exact (expand_eq_self hnm).symm
      | some k =>
        have hfs : findSub [c] (a :: t2) = some (k + 1) := by simp [findSub, hlf, hft]
        rw [pyReplace_some hfs (by simp)]
        simp only [List.take_succ_cons, List.length_singleton]
        rw [show k + 1 + 1 = (k + 1) + 1 from rfl, List.drop_succ_cons]
        simp only [expand, if_neg hac]
        rw [← ih, pyReplace_some hft (by simp)]
        simp [List.append_assoc]

theorem expand_append (f : Char → List Char) (u v : List Char) :
    expand f (u ++ v) = expand f u ++ expand f v := by
  induction u with
  | nil => rfl
  | cons a u ih => simp [expand, ih, List.append_assoc]

theorem expand_expand (f g : Char → List Char) (t : List Char) :
    expand g (expand f t) = expand (fun c => expand g (f c)) t := by
  induction t with
  | nil => rfl
  | cons a t ih => simp [expand, expand_append, ih]

theorem expand_ext {f g : Char → List Char} (h : ∀ c, f c = g c) :
    ∀ t, expand f t = expand g t := by
  intro t
  induction t with
  | nil => rfl
  | cons a t ih => simp only [expand, h a, ih]

/-- C6: `escape_html` is exactly the per-character substitution sending `&`,
`<`, `>` to their entities (each original occurrence replaced once; the
ampersands the entities introduce are never re-escaped, since the single-pass
substitution never rescans its output), and `escape_latex` is exactly the
per-character substitution escaping `&`, `%`, `#`, `_`, `~` and leaving every
other character — in particular `$` — unchanged. -/
theorem C6_escaping (s : List Char) :
    escape_html s = expand htmlEscapeChar s ∧
    escape_latex s = expand latexEscapeChar s := by
  constructor
  · show pyReplace (pyReplace (pyReplace s ['&'] "&amp;".toList)
      ['<'] "&lt;".toList) ['>'] "&gt;".toList = expand htmlEscapeChar s
    rw [pyReplace_char, pyReplace_char, pyReplace_char, expand_expand, expand_expand]
    refine expand_ext (fun c => ?_) s
    by_cases h1 : c = '&'
    · subst h1; decide
    · by_cases h2 : c = '<'
      · subst h2; decide
      · by_cases h3 : c = '>'
        · subst h3; decide
        · simp [htmlEscapeChar, expand, h1, h2, h3]
  · show pyReplace (pyReplace (pyReplace (pyReplace (pyReplace s
      ['&'] "\\&".toList) ['%'] "\\%".toList) ['#'] "\\#".toList)
      ['_'] "\\_".toList) ['~'] "\\textasciitilde\x7b\x7d".toList
      = expand latexEscapeChar s
    rw [pyReplace_char, pyReplace_char, pyReplace_char, pyReplace_char, pyReplace_char,
      expand_expand, expand_expand, expand_expand, expand_expand]
    refine expand_ext (fun c => ?_) s
    by_cases h1 : c = '&'
    · subst h1; decide
    · by_cases h2 : c = '%'
      · subst h2; decide
      · by_cases h3 : c = '#'
        · subst h3; decide
        · by_cases h4 : c = '_'
          · subst h4; decide
          · by_cases h5 : c = '~'
            · subst h5; decide
            · simp [latexEscapeChar, expand, h1, h2, h3, h4, h5]

/-- C2 counterexample: with no publication year and `earliest_date = "99"`
(non-empty, shorter than 4), the year field is `"99"` — neither a 4-character
string nor empty. -/
theorem C2_counterexample :
    fetch_year none "99".toList = "99".toList ∧
    ¬((fetch_year none "99".toList).length = 4 ∨ fetch_year none "99".toList = []) :=
  ⟨by decide, by decide⟩

/-- C2 (amended): the year field is the publication-info year verbatim when
that entry is present and non-empty; otherwise it is the first
`min 4 (length earliest_date)` characters of `earliest_date` — exactly 4
characters when `earliest_date` has at least 4, and empty exactly when
`earliest_date` is empty. -/
theorem C2_year_shape (py : Option (List Char)) (ed : List Char) :
    (∀ y, py = some y → y ≠ [] → fetch_year py ed = y) ∧
    ((py = none ∨ py = some []) →
      fetch_year py ed = ed.take 4 ∧
      (fetch_year py ed).length = min 4 ed.length ∧
      (fetch_year py ed = [] ↔ ed = [])) := by
  constructor
  · rintro y rfl hy
    simp [fetch_year, hy]
  · have hgoal : fetch_year none ed = ed.take 4 ∧
        (fetch_year none ed).length = min 4 ed.length ∧
        (fetch_year none ed = [] ↔ ed = []) := by
      by_cases hed : ed = []
      · subst hed
        refine ⟨by simp [fetch_year], by simp [fetch_year], by simp [fetch_year]⟩
      · have hfy : fetch_year none ed = ed.take 4 := by simp [fetch_year, hed]
        refine ⟨hfy, by rw [hfy]; simp [List.length_take], ?_⟩
        rw [hfy]
        simp [List.take_eq_nil_iff, hed]
    rintro (rfl | rfl)
    · exact hgoal
    · exact hgoal

/-- Witness for C2's amended theorem: the verbatim branch and the 4-character
fallback branch at concrete inputs. -/
theorem C2_year_shape_witness :
    fetch_year (some "2021".toList) "x".toList = "2021".toList ∧
    fetch_year none "2020-05-06".toList = "2020-05-06".toList.take 4 :=
  ⟨(C2_year_shape (some "2021".toList) "x".toList).1 _ rfl (by decide),
    ((C2_year_shape none "2020-05-06".toList).2 (Or.inl rfl)).1⟩

/-- C7: `is_me` accepts exactly the names whose stripped form is in the fixed
`MY_NAMES` set, or whose last-name segment (before the first comma, stripped;
the whole stripped name when no comma) contains the substring `"Berean"`. -/
theorem C7_is_owner (fn : List Char) :
    is_me fn = true ↔
      (pyStrip fn ∈ MY_NAMES ∨
        ∃ u v, lastSegment (pyStrip fn) = u ++ "Berean".toList ++ v) := by
  unfold is_me
  by_cases hmem : pyStrip fn ∈ MY_NAMES
  · simp [hmem]
  · simp [hmem, containsSub_iff]

/-- Witness for C7 at a known name. -/
theorem C7_is_owner_witness : is_me "Berean, J.".toList = true :=
  (C7_is_owner _).mpr (Or.inl (by decide))

/-- C8: `paper_link` consults the optional link fields in the fixed priority
order arXiv, then DOI, then the INSPIRE id, producing that single link, and
produces no link exactly when all three fields are absent or empty. -/
theorem C8_link_priority (p : Paper) :
    (truthy p.arxiv = true →
      paper_link p = some ("https://arxiv.org/abs/".toList ++ p.arxiv.getD [],
        "arXiv:".toList ++ p.arxiv.getD [])) ∧
    (truthy p.arxiv = false → truthy p.doi = true →
      paper_link p = some ("https://doi.org/".toList ++ p.doi.getD [],
        "doi:".toList ++ p.doi.getD [])) ∧
    (truthy p.arxiv = false → truthy p.doi = false → truthy p.inspire_id = true →
      paper_link p = some ("https://inspirehep.net/literature/".toList
        ++ p.inspire_id.getD [], "INSPIRE".toList)) ∧
    (paper_link p = none ↔
      truthy p.arxiv = false ∧ truthy p.doi = false ∧ truthy p.inspire_id = false) := by
  refine ⟨fun h1 => by simp [paper_link, h1], fun h1 h2 => by simp [paper_link, h1, h2],
    fun h1 h2 h3 => by simp [paper_link, h1, h2, h3], ?_, ?_⟩
  · intro h
    by_cases h1 : truthy p.arxiv = true
    · simp [paper_link, h1] at h
    · by_cases h2 : truthy p.doi = true
      · simp_all [paper_link]
      · by_cases h3 : truthy p.inspire_id = true
        · simp_all [paper_link]
        · simp_all
  · rintro ⟨h1, h2, h3⟩
    simp [paper_link, h1, h2, h3]

/-- Witness for C8: a record with all three identifiers gets the arXiv link. -/
theorem C8_link_priority_witness :
    paper_link ⟨"T".toList, [], some "1234.5".toList, none, "2020".toList,
        some "10.1/x".toList, some "99".toList⟩
      = some ("https://arxiv.org/abs/".toList ++ "1234.5".toList,
          "arXiv:".toList ++ "1234.5".toList) :=
  (C8_link_priority _).1 (by decide)

theorem takeWhile_comma {pre post : List Char} (h : ',' ∉ pre) :
    (pre ++ ',' :: post).takeWhile (fun c => c != ',') = pre := by
  induction pre with
  | nil => simp
  | cons a pre ih =>
    have ha : (a != ',') = true := by
      simp only [bne_iff_ne, Ne]
      intro h0
      exact h (by simp [h0])
    simp only [List.cons_append, List.takeWhile_cons, ha, if_true]
    rw [ih (fun hm => h (List.mem_cons_of_mem _ hm))]

theorem dropWhile_comma {pre post : List Char} (h : ',' ∉ pre) :
    (pre ++ ',' :: post).dropWhile (fun c => c != ',') = ',' :: post := by
  induction pre with
  | nil => simp
  | cons a pre ih =>
    have ha : (a != ',') = true := by
      simp only [bne_iff_ne, Ne]
      intro h0
      exact h (by simp [h0])
    simp only [List.cons_append, List.dropWhile_cons, ha, if_true]
    exact ih (fun hm => h (List.mem_cons_of_mem _ hm))

/-- C9: on a name of the form `pre ++ "," ++ post` whose part after the first
comma strips to nothing, `format_author_short` returns `". "` followed by the
stripped last-name segment — a lone period with no initial — rather than the
name unchanged or an error. -/
theorem C9_empty_initial {fn pre post : List Char} (hpre : ',' ∉ pre)
    (hfn : fn = pre ++ ',' :: post) (hpost : pyStrip post = []) :
    format_author_short fn = '.' :: ' ' :: pyStrip pre := by
  subst hfn
  unfold format_author_short
  rw [if_pos (by simp : ',' ∈ pre ++ ',' :: post)]
  rw [takeWhile_comma hpre, dropWhile_comma hpre]
  simp [hpost]

/-- Witness for C9 at `"Smith, "`. -/
theorem C9_empty_initial_witness :
    format_author_short "Smith, ".toList = '.' :: ' ' :: pyStrip "Smith".toList ∧
    format_author_short "Smith, ".toList = ". Smith".toList :=
  ⟨@C9_empty_initial "Smith, ".toList "Smith".toList " ".toList
    (by decide) (by decide) (by decide), by decide⟩

theorem insertAt_length (x : List Char) : ∀ n l, (insertAt n x l).length = l.length + 1 := by
  intro n
  induction n with
  | zero => intro l; simp [insertAt]
  | succ m ih =>
    intro l
    cases l with
    | nil => simp [insertAt]
    | cons a l2 => simp [insertAt, ih]

/-- C3: with more than two non-owner coauthors, `author_list_html` shows
exactly the first two coauthors' short forms with the owner's bold display
string inserted at `min me_idx 2` (at 0 when no author matches the owner),
joined with `", "` and suffixed `" et al."` — three displayed names in all. -/
theorem C3_truncation (authors : List (List Char))
    (h : 2 < ((authors.filter (fun a => !(is_me a))).map format_author_short).length) :
    ∃ c1 c2 rest,
      (authors.filter (fun a => !(is_me a))).map format_author_short
        = c1 :: c2 :: rest ∧
      author_list_html authors
        = joinSep ", ".toList
            (insertAt (match lastIdxFrom 0 authors with
              | some i => min i 2
              | none => 0) me_html [c1, c2]) ++ " et al.".toList ∧
      (insertAt (match lastIdxFrom 0 authors with
        | some i => min i 2
        | none => 0) me_html [c1, c2]).length = 3 := by
  cases hco : (authors.filter (fun a => !(is_me a))).map format_author_short with
  | nil => rw [hco] at h; simp at h
  | cons c1 co2 =>
    cases co2 with
    | nil => rw [hco] at h; simp at h
    | cons c2 rest =>
      refine ⟨c1, c2, rest, rfl, ?_, by rw [insertAt_length]; rfl⟩
      rw [hco] at h
      unfold author_list_html
      rw [hco]
      rw [if_neg (by omega)]
      cases hmi : lastIdxFrom 0 authors with
      | some i => simp
      | none => simp

/-- Witness for C3 with the owner in second position among five authors. -/
theorem C3_truncation_witness :
    ∃ c1 c2 rest,
      (( ["Adams, Alice".toList, "Berean, J.".toList, "Clark, Bob".toList,
          "Davis, Carol".toList, "Evans, Dan".toList].filter
            (fun a => !(is_me a))).map format_author_short)
        = c1 :: c2 :: rest ∧
      author_list_html
          ["Adams, Alice".toList, "Berean, J.".toList, "Clark, Bob".toList,
           "Davis, Carol".toList, "Evans, Dan".toList]
        = joinSep ", ".toList
            (insertAt (match lastIdxFrom 0
                ["Adams, Alice".toList, "Berean, J.".toList, "Clark, Bob".toList,
                 "Davis, Carol".toList, "Evans, Dan".toList] with
              | some i => min i 2
              | none => 0) me_html [c1, c2]) ++ " et al.".toList ∧
      (insertAt (match lastIdxFrom 0
          ["Adams, Alice".toList, "Berean, J.".toList, "Clark, Bob".toList,
           "Davis, Carol".toList, "Evans, Dan".toList] with
        | some i => min i 2
        | none => 0) me_html [c1, c2]).length = 3 :=
  C3_truncation _ (by decide)
